import Mathlib

/-
Verification of the WaveGrad diffusion process (model/diffusion_process.py).

The schedule arithmetic of the constructor is rational, so the schedule
arrays are embedded over ℚ (torch.linspace, cumprod, the shift-by-one
arrays); the arrays that apply a square root or a logarithm are embedded
over ℝ on top of the rational ones.  Tensors along the time axis are
embedded as lists of reals, mel-spectrograms as lists of frames, the
backbone network as an abstract function, and every random draw the code
makes (np.random.choice, np.random.uniform, torch.randn, torch.randn_like)
is passed in explicitly as data, so that every operation is a pure function
of its inputs and its randomness.
-/

namespace WaveGradSpec

/-- Embedding of torch.linspace(a, b, steps = n): n evenly spaced points
from a to b inclusive.  For n = 1 torch returns [a]; the formula below
agrees because in ℚ division by zero is zero. -/
def linspace (a b : ℚ) (n : ℕ) : List ℚ :=
  (List.range n).map (fun i : ℕ => a + (i : ℚ) * (b - a) / ((n : ℚ) - 1))

/-- Embedding of torch.cumprod along dim 0: cumprod [a, b, c] = [a, ab, abc]. -/
def cumprod : List ℚ → List ℚ
  | [] => []
  | a :: as => a :: (cumprod as).map (fun x => a * x)

/-- Constructor line: betas = torch.linspace(betas_range[0], betas_range[1], steps = n_iter). -/
def betas (n : ℕ) (bmin bmax : ℚ) : List ℚ :=
  linspace bmin bmax n

/-- Constructor line: alphas = 1 - betas. -/
def alphas (n : ℕ) (bmin bmax : ℚ) : List ℚ :=
  (betas n bmin bmax).map (fun b => 1 - b)

/-- Constructor line: alphas_cumprod = alphas.cumprod(dim = 0). -/
def alphas_cumprod (n : ℕ) (bmin bmax : ℚ) : List ℚ :=
  cumprod (alphas n bmin bmax)

/-- Constructor line: alphas_cumprod_prev = cat([FloatTensor([1]), alphas_cumprod[:-1]]). -/
def alphas_cumprod_prev (n : ℕ) (bmin bmax : ℚ) : List ℚ :=
  1 :: (alphas_cumprod n bmin bmax).dropLast

/-- Constructor line: alphas_cumprod_prev_with_last = cat([FloatTensor([1]), alphas_cumprod]). -/
def alphas_cumprod_prev_with_last (n : ℕ) (bmin bmax : ℚ) : List ℚ :=
  1 :: alphas_cumprod n bmin bmax

/-- Constructor line: sqrt_alphas_cumprod_prev = alphas_cumprod_prev_with_last.sqrt().
This is the boundary-prefixed lookup table of length n_iter + 1. -/
noncomputable def sqrt_alphas_cumprod_prev (n : ℕ) (bmin bmax : ℚ) : List ℝ :=
  (alphas_cumprod_prev_with_last n bmin bmax).map (fun q : ℚ => Real.sqrt (q : ℝ))

/-- Constructor line: sqrt_recip_alphas_cumprod = (1 / alphas_cumprod).sqrt(). -/
noncomputable def sqrt_recip_alphas_cumprod (n : ℕ) (bmin bmax : ℚ) : List ℝ :=
  (alphas_cumprod n bmin bmax).map (fun q : ℚ => Real.sqrt (1 / (q : ℝ)))

/-- Constructor line: sqrt_recipm1_alphas_cumprod = (1 / alphas_cumprod - 1).sqrt(). -/
noncomputable def sqrt_recipm1_alphas_cumprod (n : ℕ) (bmin bmax : ℚ) : List ℝ :=
  (alphas_cumprod n bmin bmax).map (fun q : ℚ => Real.sqrt (1 / (q : ℝ) - 1))

/-- A three-list pointwise zip, used for the posterior coefficient arrays. -/
def zipWith3 (f : α → β → γ → δ) : List α → List β → List γ → List δ
  | a :: as, b :: bs, c :: cs => f a b c :: zipWith3 f as bs cs
  | _, _, _ => []

/-- Constructor line: posterior_variance = betas * (1 - alphas_cumprod_prev) / (1 - alphas_cumprod). -/
def posterior_variance (n : ℕ) (bmin bmax : ℚ) : List ℚ :=
  zipWith3 (fun b p c => b * (1 - p) / (1 - c))
    (betas n bmin bmax) (alphas_cumprod_prev n bmin bmax) (alphas_cumprod n bmin bmax)

/-- Constructor lines: posterior_variance is stacked against the constant 1e-20,
the elementwise max is taken and then the log. -/
noncomputable def posterior_log_variance_clipped (n : ℕ) (bmin bmax : ℚ) : List ℝ :=
  (posterior_variance n bmin bmax).map (fun v : ℚ => Real.log (max (v : ℝ) (1 / 10 ^ 20)))

/-- Constructor line: posterior_mean_coef1 = betas * alphas_cumprod_prev.sqrt() / (1 - alphas_cumprod). -/
noncomputable def posterior_mean_coef1 (n : ℕ) (bmin bmax : ℚ) : List ℝ :=
  zipWith3 (fun (b p c : ℚ) => (b : ℝ) * Real.sqrt (p : ℝ) / (1 - (c : ℝ)))
    (betas n bmin bmax) (alphas_cumprod_prev n bmin bmax) (alphas_cumprod n bmin bmax)

/-- Constructor line: posterior_mean_coef2 = (1 - alphas_cumprod_prev) * alphas.sqrt() / (1 - alphas_cumprod). -/
noncomputable def posterior_mean_coef2 (n : ℕ) (bmin bmax : ℚ) : List ℝ :=
  zipWith3 (fun (a p c : ℚ) => (1 - (p : ℝ)) * Real.sqrt (a : ℝ) / (1 - (c : ℝ)))
    (alphas n bmin bmax) (alphas_cumprod_prev n bmin bmax) (alphas_cumprod n bmin bmax)

theorem length_linspace (a b : ℚ) (n : ℕ) : (linspace a b n).length = n := by
  rw [linspace, List.length_map, List.length_range]

theorem length_cumprod (l : List ℚ) : (cumprod l).length = l.length := by
  induction l with
  | nil => rfl
  | cons a as ih => rw [cumprod, List.length_cons, List.length_cons, List.length_map, ih]

theorem length_betas (n : ℕ) (bmin bmax : ℚ) : (betas n bmin bmax).length = n := by
  rw [betas, length_linspace]

theorem length_alphas (n : ℕ) (bmin bmax : ℚ) : (alphas n bmin bmax).length = n := by
  rw [alphas, List.length_map, length_betas]

theorem length_alphas_cumprod (n : ℕ) (bmin bmax : ℚ) :
    (alphas_cumprod n bmin bmax).length = n := by
  rw [alphas_cumprod, length_cumprod, length_alphas]

theorem length_sqrt_alphas_cumprod_prev (n : ℕ) (bmin bmax : ℚ) :
    (sqrt_alphas_cumprod_prev n bmin bmax).length = n + 1 := by
  rw [sqrt_alphas_cumprod_prev, List.length_map, alphas_cumprod_prev_with_last,
    List.length_cons, length_alphas_cumprod]

theorem mem_linspace_bounds {a b : ℚ} (hab : a ≤ b) {n : ℕ} :
    ∀ x ∈ linspace a b n, a ≤ x ∧ x ≤ b := by
  intro x hx
  rw [linspace] at hx
  obtain ⟨i, hmem, rfl⟩ := List.mem_map.mp hx
  have hi : i < n := List.mem_range.mp hmem
  rcases Nat.eq_zero_or_pos i with h0 | hpos
  · subst h0
    simp [hab]
  · have hn2 : 2 ≤ n := by omega
    have hn1 : (0 : ℚ) < (n : ℚ) - 1 := by
      have h2 : (2 : ℚ) ≤ (n : ℚ) := by exact_mod_cast hn2
      linarith
    have hba : (0 : ℚ) ≤ b - a := by linarith
    constructor
    · have hnn : (0 : ℚ) ≤ (i : ℚ) * (b - a) / ((n : ℚ) - 1) :=
        div_nonneg (mul_nonneg (Nat.cast_nonneg i) hba) (le_of_lt hn1)
      linarith
    · have hi' : (i : ℚ) ≤ (n : ℚ) - 1 := by
        have hlt : (i : ℚ) + 1 ≤ (n : ℚ) := by exact_mod_cast hi
        linarith
      have h1 : (i : ℚ) * (b - a) ≤ ((n : ℚ) - 1) * (b - a) :=
        mul_le_mul_of_nonneg_right hi' hba
      have h2 : (i : ℚ) * (b - a) / ((n : ℚ) - 1) ≤ b - a := by
        rw [div_le_iff₀ hn1]
        linarith
      linarith

theorem mem_alphas_unit {n : ℕ} {bmin bmax : ℚ} (h1 : 0 < bmin) (h2 : bmin < bmax)
    (h3 : bmax < 1) : ∀ x ∈ alphas n bmin bmax, 0 < x ∧ x < 1 := by
  intro x hx
  simp only [alphas, List.mem_map] at hx
  obtain ⟨b, hb, rfl⟩ := hx
  have hbd := mem_linspace_bounds (le_of_lt h2) b hb
  constructor
  · linarith [hbd.2]
  · linarith [hbd.1]

theorem cumprod_mem_unit {l : List ℚ} (h : ∀ x ∈ l, 0 < x ∧ x < 1) :
    ∀ y ∈ cumprod l, 0 < y ∧ y < 1 := by
  induction l with
  | nil => simp [cumprod]
  | cons a as ih =>
    intro y hy
    simp only [cumprod, List.mem_cons, List.mem_map] at hy
    have ha := h a (by simp)
    rcases hy with rfl | ⟨z, hz, rfl⟩
    · exact ha
    · have hz' := ih (fun x hx => h x (by simp [hx])) z hz
      constructor
      · exact mul_pos ha.1 hz'.1
      · nlinarith [ha.1, ha.2, hz'.1, hz'.2]

theorem cumprod_chain_lt {l : List ℚ} (h : ∀ x ∈ l, 0 < x ∧ x < 1) :
    List.Chain' (fun x y => y < x) (cumprod l) := by
  induction l with
  | nil => simp [cumprod]
  | cons a as ih =>
    have ha := h a (by simp)
    have htail : ∀ x ∈ as, 0 < x ∧ x < 1 := fun x hx => h x (by simp [hx])
    simp only [cumprod]
    rw [List.chain'_cons']
    constructor
    · intro y hy
      cases hcp : cumprod as with
      | nil => simp [hcp] at hy
      | cons c cs =>
        simp only [hcp, List.map_cons, List.head?_cons, Option.mem_def, Option.some.injEq] at hy
        subst hy
        have hc : 0 < c ∧ c < 1 := cumprod_mem_unit htail c (by simp [hcp])
        nlinarith [ha.1, hc.1, hc.2]
    · rw [List.chain'_map]
      exact (ih htail).imp (fun x y hxy => mul_lt_mul_of_pos_left hxy ha.1)

theorem alphas_cumprod_chain_lt {n : ℕ} {bmin bmax : ℚ} (h1 : 0 < bmin)
    (h2 : bmin < bmax) (h3 : bmax < 1) :
    List.Chain' (fun x y => y < x) (alphas_cumprod n bmin bmax) :=
  cumprod_chain_lt (mem_alphas_unit h1 h2 h3)

theorem alphas_cumprod_mem_unit {n : ℕ} {bmin bmax : ℚ} (h1 : 0 < bmin)
    (h2 : bmin < bmax) (h3 : bmax < 1) :
    ∀ x ∈ alphas_cumprod n bmin bmax, 0 < x ∧ x < 1 :=
  cumprod_mem_unit (mem_alphas_unit h1 h2 h3)

theorem prev_with_last_chain_ge {n : ℕ} {bmin bmax : ℚ} (h1 : 0 < bmin)
    (h2 : bmin < bmax) (h3 : bmax < 1) :
    List.Chain' (fun x y => y ≤ x) (alphas_cumprod_prev_with_last n bmin bmax) := by
  rw [alphas_cumprod_prev_with_last, List.chain'_cons']
  constructor
  · intro y hy
    have hmem : y ∈ alphas_cumprod n bmin bmax := List.mem_of_mem_head? hy
    have hc := alphas_cumprod_mem_unit h1 h2 h3 y hmem
    linarith [hc.2]
  · exact (alphas_cumprod_chain_lt h1 h2 h3).imp (fun x y hxy => le_of_lt hxy)

theorem sqrt_prev_chain_ge {n : ℕ} {bmin bmax : ℚ} (h1 : 0 < bmin)
    (h2 : bmin < bmax) (h3 : bmax < 1) :
    List.Chain' (fun x y : ℝ => y ≤ x) (sqrt_alphas_cumprod_prev n bmin bmax) := by
  rw [sqrt_alphas_cumprod_prev, List.chain'_map]
  exact (prev_with_last_chain_ge h1 h2 h3).imp
    (fun x y hxy => Real.sqrt_le_sqrt (by exact_mod_cast hxy))

theorem chain_ge_getD_le_head (a : ℝ) (l : List ℝ)
    (hc : List.Chain' (fun x y => y ≤ x) (a :: l)) :
    ∀ j, j < l.length + 1 → (a :: l).getD j 0 ≤ a := by
  induction l generalizing a with
  | nil =>
    intro j hj
    simp only [List.length_nil] at hj
    have hj0 : j = 0 := by omega
    subst hj0
    simp
  | cons b l' ih =>
    intro j hj
    match j with
    | 0 => simp
    | j + 1 =>
      have hchain := List.chain'_cons.mp hc
      have hrec := ih b hchain.2 j (by simpa using hj)
      calc (a :: b :: l').getD (j + 1) 0 = (b :: l').getD j 0 := by
            simp [List.getD_cons_succ]
        _ ≤ b := hrec
        _ ≤ a := hchain.1

theorem chain_ge_getD_mono (l : List ℝ) (hc : List.Chain' (fun x y => y ≤ x) l) :
    ∀ i j, i ≤ j → j < l.length → l.getD j 0 ≤ l.getD i 0 := by
  induction l with
  | nil =>
    intro i j _ hj
    simp at hj
  | cons a l' ih =>
    intro i j hij hj
    match i with
    | 0 =>
      simp only [List.getD_cons_zero]
      exact chain_ge_getD_le_head a l' hc j (by simpa using hj)
    | i + 1 =>
      match j with
      | 0 => omega
      | j + 1 =>
        simp only [List.getD_cons_succ]
        exact ih hc.tail i j (by omega) (by simpa using hj)

/-- C8: for every valid hyperparameter triple (n_iter > 0, 0 < beta_min < beta_max < 1),
the constructed schedule satisfies: alphas_cumprod is strictly decreasing with every entry
in (0, 1], alphas_cumprod_prev starts with 1, and sqrt_alphas_cumprod_prev (the
boundary-prefixed lookup table) has length n_iter + 1, first entry exactly 1, and is
non-increasing. -/
theorem C8_schedule_invariants (n : ℕ) (bmin bmax : ℚ) (hn : 0 < n) (h1 : 0 < bmin)
    (h2 : bmin < bmax) (h3 : bmax < 1) :
    List.Chain' (fun x y => y < x) (alphas_cumprod n bmin bmax) ∧
    (∀ x ∈ alphas_cumprod n bmin bmax, 0 < x ∧ x ≤ 1) ∧
    (alphas_cumprod_prev n bmin bmax).head? = some 1 ∧
    (sqrt_alphas_cumprod_prev n bmin bmax).length = n + 1 ∧
    (sqrt_alphas_cumprod_prev n bmin bmax).head? = some 1 ∧
    List.Chain' (fun x y : ℝ => y ≤ x) (sqrt_alphas_cumprod_prev n bmin bmax) := by
  refine ⟨alphas_cumprod_chain_lt h1 h2 h3, ?_, ?_, length_sqrt_alphas_cumprod_prev n bmin bmax, ?_, sqrt_prev_chain_ge h1 h2 h3⟩
  · intro x hx
    have hm := alphas_cumprod_mem_unit h1 h2 h3 x hx
    exact ⟨hm.1, le_of_lt hm.2⟩
  · rfl
  · rw [sqrt_alphas_cumprod_prev, alphas_cumprod_prev_with_last]
    simp [Real.sqrt_one]

/-- Witness for C8 at the concrete valid triple n_iter = 3, beta_min = 1/10, beta_max = 1/2. -/
theorem C8_schedule_invariants_witness :
    0 < 3 ∧ (0 : ℚ) < 1 / 10 ∧ (1 : ℚ) / 10 < 1 / 2 ∧ (1 : ℚ) / 2 < 1 ∧
    (List.Chain' (fun x y => y < x) (alphas_cumprod 3 (1 / 10) (1 / 2)) ∧
    (∀ x ∈ alphas_cumprod 3 (1 / 10) (1 / 2), 0 < x ∧ x ≤ 1) ∧
    (alphas_cumprod_prev 3 (1 / 10) (1 / 2)).head? = some 1 ∧
    (sqrt_alphas_cumprod_prev 3 (1 / 10) (1 / 2)).length = 3 + 1 ∧
    (sqrt_alphas_cumprod_prev 3 (1 / 10) (1 / 2)).head? = some 1 ∧
    List.Chain' (fun x y : ℝ => y ≤ x) (sqrt_alphas_cumprod_prev 3 (1 / 10) (1 / 2))) :=
  ⟨by decide, by norm_num, by norm_num, by norm_num,
    C8_schedule_invariants 3 (1 / 10) (1 / 2) (by decide) (by norm_num) (by norm_num) (by norm_num)⟩

/-- Embedding of one draw of sample_continious_noise_level: the randomness is passed
in as the np.random.choice result s (an integer in [1, n_iter]) and the unit
interpolation parameter t of np.random.uniform(lo, hi) = lo + t * (hi - lo).
The code interpolates between sqrt_alphas_cumprod_prev[s - 1] and
sqrt_alphas_cumprod_prev[s]. -/
noncomputable def sample_noise_level_one (n : ℕ) (bmin bmax : ℚ) (s : ℕ) (t : ℝ) : ℝ :=
  (sqrt_alphas_cumprod_prev n bmin bmax).getD (s - 1) 0 +
    t * ((sqrt_alphas_cumprod_prev n bmin bmax).getD s 0 -
      (sqrt_alphas_cumprod_prev n bmin bmax).getD (s - 1) 0)

/-- Embedding of sample_continious_noise_level for a batch: one value per draw,
each draw being a pair (s, t) as in sample_noise_level_one. -/
noncomputable def sample_continious_noise_level (n : ℕ) (bmin bmax : ℚ)
    (draws : List (ℕ × ℝ)) : List ℝ :=
  draws.map (fun d => sample_noise_level_one n bmin bmax d.1 d.2)

/-- C7: every batched noise level is obtained by interpolating between the adjacent
entries sqrt_alphas_cumprod_prev[s - 1] and sqrt_alphas_cumprod_prev[s] for a random
integer s in [1, n_iter], and consequently, for a valid schedule, every sampled value
lies between sqrt_alphas_cumprod_prev[n_iter] and sqrt_alphas_cumprod_prev[0]. -/
theorem C7_noise_level_bounds (n : ℕ) (bmin bmax : ℚ) (s : ℕ) (t : ℝ)
    (draws : List (ℕ × ℝ)) (h1 : 0 < bmin) (h2 : bmin < bmax) (h3 : bmax < 1)
    (hs1 : 1 ≤ s) (hs2 : s ≤ n) (ht0 : 0 ≤ t) (ht1 : t ≤ 1) :
    sample_continious_noise_level n bmin bmax draws
      = draws.map (fun d => sample_noise_level_one n bmin bmax d.1 d.2) ∧
    (sqrt_alphas_cumprod_prev n bmin bmax).getD n 0
      ≤ sample_noise_level_one n bmin bmax s t ∧
    sample_noise_level_one n bmin bmax s t
      ≤ (sqrt_alphas_cumprod_prev n bmin bmax).getD 0 0 := by
  have hlen := length_sqrt_alphas_cumprod_prev n bmin bmax
  have hchain := sqrt_prev_chain_ge (n := n) h1 h2 h3
  have hmono := chain_ge_getD_mono (sqrt_alphas_cumprod_prev n bmin bmax) hchain
  set a := sqrt_alphas_cumprod_prev n bmin bmax with ha
  have hhl : a.getD s 0 ≤ a.getD (s - 1) 0 :=
    hmono (s - 1) s (by omega) (by omega)
  have hns : a.getD n 0 ≤ a.getD s 0 :=
    hmono s n hs2 (by omega)
  have hs0 : a.getD (s - 1) 0 ≤ a.getD 0 0 :=
    hmono 0 (s - 1) (by omega) (by omega)
  refine ⟨rfl, ?_, ?_⟩
  · have hlow : a.getD s 0 ≤ sample_noise_level_one n bmin bmax s t := by
      rw [sample_noise_level_one, ← ha]
      nlinarith [mul_nonneg (sub_nonneg.mpr ht1) (sub_nonneg.mpr hhl)]
    linarith
  · have hhigh : sample_noise_level_one n bmin bmax s t ≤ a.getD (s - 1) 0 := by
      rw [sample_noise_level_one, ← ha]
      nlinarith [mul_nonneg ht0 (sub_nonneg.mpr hhl)]
    linarith

/-- Witness for C7 at n_iter = 2, beta_min = 1/10, beta_max = 1/2, s = 1, t = 0. -/
theorem C7_noise_level_bounds_witness :
    (0 : ℚ) < 1 / 10 ∧ (1 : ℚ) / 10 < 1 / 2 ∧ (1 : ℚ) / 2 < 1 ∧
    1 ≤ 1 ∧ 1 ≤ 2 ∧ (0 : ℝ) ≤ 0 ∧ (0 : ℝ) ≤ 1 ∧
    (sample_continious_noise_level 2 (1 / 10) (1 / 2) [(1, 0)]
      = [(1, (0 : ℝ))].map (fun d => sample_noise_level_one 2 (1 / 10) (1 / 2) d.1 d.2) ∧
    (sqrt_alphas_cumprod_prev 2 (1 / 10) (1 / 2)).getD 2 0
      ≤ sample_noise_level_one 2 (1 / 10) (1 / 2) 1 0 ∧
    sample_noise_level_one 2 (1 / 10) (1 / 2) 1 0
      ≤ (sqrt_alphas_cumprod_prev 2 (1 / 10) (1 / 2)).getD 0 0) :=
  ⟨by norm_num, by norm_num, by norm_num, le_refl 1, by decide, le_refl 0, zero_le_one,
    C7_noise_level_bounds 2 (1 / 10) (1 / 2) 1 0 [(1, 0)]
      (by norm_num) (by norm_num) (by norm_num) (le_refl 1) (by decide) (le_refl 0) zero_le_one⟩

/-- Embedding of q_sample (lines 80..88).  The optional arguments keep their
Python None semantics through Option; the two fresh random draws the code would
make (a noise level from sample_continious_noise_level and eps from
torch.randn_like) are passed in as freshLevel and freshEps.  The code replaces
the noise level by the fresh draw exactly when eps is None, then replaces a None
eps by fresh Gaussian noise, and finally multiplies the (possibly still None)
noise level with the signal: a None level there is Python's
TypeError (None * tensor), embedded as the result none. -/
def q_sample (y0 : ℝ) (level eps : Option ℝ) (freshLevel freshEps : ℝ) : Option ℝ :=
  let level' : Option ℝ := if eps.isNone then some freshLevel else level
  let eps' : ℝ := eps.getD freshEps
  level'.map (fun l => l * y0 + (1 - l ^ 2) * eps')

/-- C1 (code bug): the forward diffusion q_sample multiplies eps by
(1 - noise_level^2) with no square root, so at y0 = 0, noise_level = 1/2,
eps = 1 the code returns 3/4 while the documented formula
noise_level * y0 + sqrt(1 - noise_level^2) * eps gives sqrt(3)/2.
predict_start_from_noise in the same file inverts the square-root form,
so the file itself treats sqrt(1 - noise_level^2) as intended. -/
theorem C1_q_sample_drops_sqrt :
    q_sample 0 (some (1 / 2)) (some 1) 0 0 = some (3 / 4) ∧
    (3 / 4 : ℝ) ≠ (1 / 2) * 0 + Real.sqrt (1 - (1 / 2 : ℝ) ^ 2) * 1 := by
  constructor
  · rw [q_sample]
    norm_num
  · have h34 : (1 - (1 / 2 : ℝ) ^ 2) = 3 / 4 := by norm_num
    rw [h34]
    intro heq
    have hsq : Real.sqrt (3 / 4) ^ 2 = 3 / 4 := Real.sq_sqrt (by norm_num)
    rw [show (1 / 2 : ℝ) * 0 + Real.sqrt (3 / 4) * 1 = Real.sqrt (3 / 4) by ring] at heq
    rw [← heq] at hsq
    norm_num at hsq

/-- C2 counterexample: supplying the noise level 1/2 while omitting eps does not
use the supplied level; the code draws a fresh level because its condition
tests eps, not the noise level.  With fresh draws freshLevel = 0 and
freshEps = 0 the output is 0, whereas any use of the supplied level 1/2 on
y0 = 1 with eps drawn as 0 would give 1/2 * 1 + c * 0 = 1/2. -/
theorem C2_noise_level_ignored_cex :
    q_sample 1 (some (1 / 2)) none 0 0 = some 0 ∧ (0 : ℝ) ≠ 1 / 2 := by
  constructor
  · rw [q_sample]
    norm_num
  · norm_num

/-- C2 amended: a fresh noise level is drawn exactly when eps is omitted,
regardless of whether a noise level was supplied; the supplied noise level is
used unchanged only when eps is also supplied. -/
theorem C2_noise_level_amended (y0 : ℝ) (level : Option ℝ) (l e freshLevel freshEps : ℝ) :
    q_sample y0 level none freshLevel freshEps
      = some (freshLevel * y0 + (1 - freshLevel ^ 2) * freshEps) ∧
    q_sample y0 (some l) (some e) freshLevel freshEps
      = some (l * y0 + (1 - l ^ 2) * e) := by
  constructor <;> rfl

/-- C10: calling q_sample with eps supplied but the noise level left as None
raises a TypeError (None multiplied with the signal), embedded as none: no
noise level is drawn because the draw is guarded by eps being None. -/
theorem C10_q_sample_eps_only_error (y0 e freshLevel freshEps : ℝ) :
    q_sample y0 none (some e) freshLevel freshEps = none := rfl

/-- The value object built by WaveGrad.__init__: all registered schedule buffers
together with the two derived integer configuration values. -/
structure Schedule where
  n_iter : ℕ
  mel_segment_length : ℕ
  total_factor : ℕ
  betas : List ℚ
  alphas : List ℚ
  alphas_cumprod : List ℚ
  alphas_cumprod_prev : List ℚ
  sqrt_alphas_cumprod_prev : List ℝ
  sqrt_recip_alphas_cumprod : List ℝ
  sqrt_recipm1_alphas_cumprod : List ℝ
  posterior_log_variance_clipped : List ℝ
  posterior_mean_coef1 : List ℝ
  posterior_mean_coef2 : List ℝ

/-- Embedding of WaveGrad.__init__ (lines 21..63).  The constructor computes every
schedule array unconditionally; the only check it performs is the assert that
np.product(config.model_config.factors) equals config.data_config.hop_length,
after the arrays are built and before the object is returned.  A failed assert
is an AssertionError, embedded as none.  No validation of n_iter, beta_min or
beta_max exists anywhere in the constructor. -/
noncomputable def WaveGrad_init (n_iter : ℕ) (bmin bmax : ℚ)
    (segment_length hop_length : ℕ) (factors : List ℕ) : Option Schedule :=
  if factors.prod = hop_length then
    some
      { n_iter := n_iter
        mel_segment_length := segment_length / hop_length
        total_factor := factors.prod
        betas := betas n_iter bmin bmax
        alphas := alphas n_iter bmin bmax
        alphas_cumprod := alphas_cumprod n_iter bmin bmax
        alphas_cumprod_prev := alphas_cumprod_prev n_iter bmin bmax
        sqrt_alphas_cumprod_prev := sqrt_alphas_cumprod_prev n_iter bmin bmax
        sqrt_recip_alphas_cumprod := sqrt_recip_alphas_cumprod n_iter bmin bmax
        sqrt_recipm1_alphas_cumprod := sqrt_recipm1_alphas_cumprod n_iter bmin bmax
        posterior_log_variance_clipped := posterior_log_variance_clipped n_iter bmin bmax
        posterior_mean_coef1 := posterior_mean_coef1 n_iter bmin bmax
        posterior_mean_coef2 := posterior_mean_coef2 n_iter bmin bmax }
  else none

/-- C3 counterexample: the hyperparameter triple n_iter = 3, beta_min = 1/2,
beta_max = 1/5 violates beta_min < beta_max, yet construction succeeds (with
matching factor product 4 and hop length 4) and produces a Schedule, because
the constructor never validates the triple. -/
theorem C3_no_validation_cex :
    ¬ ((1 : ℚ) / 2 < 1 / 5) ∧
    (WaveGrad_init 3 (1 / 2) (1 / 5) 100 4 [2, 2]).isSome = true := by
  constructor
  · norm_num
  · rw [WaveGrad_init]
    norm_num

/-- C3 amended: construction performs no validation of (n_iter, beta_min,
beta_max); whenever the factor product equals the hop length a Schedule is
produced, for every hyperparameter triple, invalid ones included.  The only
configuration error raised at construction is the factor/hop-length assert. -/
theorem C3_amended_no_validation (n_iter : ℕ) (bmin bmax : ℚ)
    (segment_length hop_length : ℕ) (factors : List ℕ)
    (hfac : factors.prod = hop_length) :
    (WaveGrad_init n_iter bmin bmax segment_length hop_length factors).isSome = true := by
  rw [WaveGrad_init, if_pos hfac]
  rfl

/-- Witness for the amended C3 at the invalid triple (3, 1/2, 1/5) with factors
[2, 2] and hop length 4. -/
theorem C3_amended_no_validation_witness :
    ([2, 2] : List ℕ).prod = 4 ∧
    (WaveGrad_init 3 (1 / 2) (1 / 5) 100 4 [2, 2]).isSome = true :=
  ⟨by decide, C3_amended_no_validation 3 (1 / 2) (1 / 5) 100 4 [2, 2] (by decide)⟩

/-- C9: construction succeeds exactly when the total upsampling factor
(np.product of the configured stride factors) equals the configured hop
length; a mismatch is an AssertionError raised in the constructor, hence
before any sampling call, and a match never raises this error. -/
theorem C9_total_factor_check (n_iter : ℕ) (bmin bmax : ℚ)
    (segment_length hop_length : ℕ) (factors : List ℕ) :
    (WaveGrad_init n_iter bmin bmax segment_length hop_length factors).isSome = true
      ↔ factors.prod = hop_length := by
  rw [WaveGrad_init]
  by_cases h : factors.prod = hop_length
  · rw [if_pos h]
    simp [h]
  · rw [if_neg h]
    simp [h]

/-- The external noise predictor (the WaveGradNN backbone), treated as an opaque
function of (mel features, noisy signal, noise level). -/
def NN : Type :=
  List (List ℝ) → List ℝ → ℝ → List ℝ

/-- Embedding of predict_start_from_noise: sqrt_recip_alphas_cumprod[t] * y -
sqrt_recipm1_alphas_cumprod[t] * eps, elementwise over the waveform. -/
noncomputable def predict_start_from_noise (n : ℕ) (bmin bmax : ℚ) (y : List ℝ)
    (t : ℕ) (eps : List ℝ) : List ℝ :=
  List.zipWith
    (fun yi ei => (sqrt_recip_alphas_cumprod n bmin bmax).getD t 0 * yi -
      (sqrt_recipm1_alphas_cumprod n bmin bmax).getD t 0 * ei) y eps

/-- Embedding of q_posterior: the posterior mean (coef1[t] * y_start + coef2[t] * y)
and the clipped posterior log-variance at step t. -/
noncomputable def q_posterior (n : ℕ) (bmin bmax : ℚ) (y_start y : List ℝ) (t : ℕ) :
    List ℝ × ℝ :=
  (List.zipWith
    (fun ys yi => (posterior_mean_coef1 n bmin bmax).getD t 0 * ys +
      (posterior_mean_coef2 n bmin bmax).getD t 0 * yi) y_start y,
   (posterior_log_variance_clipped n bmin bmax).getD t 0)

/-- Embedding of p_mean_variance: queries the noise predictor at noise level
sqrt_alphas_cumprod_prev[t], reconstructs y_0 with predict_start_from_noise,
optionally clamps it to [-1, 1], and returns the posterior mean and
log-variance. -/
noncomputable def p_mean_variance (n : ℕ) (bmin bmax : ℚ) (nn : NN)
    (mels : List (List ℝ)) (y : List ℝ) (t : ℕ) (clip_denoised : Bool) : List ℝ × ℝ :=
  let noise_level := (sqrt_alphas_cumprod_prev n bmin bmax).getD t 0
  let eps_recon := nn mels y noise_level
  let y_recon := predict_start_from_noise n bmin bmax y t eps_recon
  let y_clipped := if clip_denoised then y_recon.map (fun x => min (max x (-1)) 1) else y_recon
  q_posterior n bmin bmax y_clipped y t

/-- Embedding of compute_inverse_dynamics (one reverse step): the injected noise z
(torch.randn_like(y)) is passed in as data and is used only when t > 0; at t = 0
the code substitutes torch.zeros_like(y).  The result is
mean + eps * exp(0.5 * log_variance). -/
noncomputable def compute_inverse_dynamics (n : ℕ) (bmin bmax : ℚ) (nn : NN)
    (mels : List (List ℝ)) (y : List ℝ) (t : ℕ) (z : List ℝ) (clip_denoised : Bool) :
    List ℝ :=
  let mv := p_mean_variance n bmin bmax nn mels y t clip_denoised
  let eps := if 0 < t then z else y.map (fun _ => (0 : ℝ))
  List.zipWith (fun m e => m + e * Real.exp ((1 / 2 : ℝ) * mv.2)) mv.1 eps

/-- The descending reverse-process loop of sample: chainSteps f n y is the
chronological list of states starting at y, where n steps remain and the next
step applied is f (n - 1) (the loop body runs t = n-1, n-2, ..., 0). -/
noncomputable def chainSteps (f : ℕ → List ℝ → List ℝ) : ℕ → List ℝ → List (List ℝ)
  | 0, y => [y]
  | t + 1, y => y :: chainSteps f t (f t y)

/-- Embedding of sample (lines 122..139): the initial state is torch.randn of
length T * total_factor (the draw is the function g on indices), the loop runs
compute_inverse_dynamics for t = n_iter-1 down to 0 with fresh noise z t per
step, and either the whole trajectory or only the terminal state is returned. -/
noncomputable def sample (n : ℕ) (bmin bmax : ℚ) (total_factor : ℕ) (nn : NN)
    (mels : List (List ℝ)) (g : ℕ → ℝ) (z : ℕ → List ℝ)
    (store_intermediate_states : Bool) : List (List ℝ) ⊕ List ℝ :=
  let ys := chainSteps
    (fun t y => compute_inverse_dynamics n bmin bmax nn mels y t (z t) true) n
    ((List.range (mels.length * total_factor)).map g)
  if store_intermediate_states then Sum.inl ys else Sum.inr (ys.getLastD [])

/-- The terminal state of sample (its store_intermediate_states = False return). -/
noncomputable def sample_terminal (n : ℕ) (bmin bmax : ℚ) (total_factor : ℕ)
    (nn : NN) (mels : List (List ℝ)) (g : ℕ → ℝ) (z : ℕ → List ℝ) : List ℝ :=
  (chainSteps
    (fun t y => compute_inverse_dynamics n bmin bmax nn mels y t (z t) true) n
    ((List.range (mels.length * total_factor)).map g)).getLastD []

theorem chainSteps_length (f : ℕ → List ℝ → List ℝ) :
    ∀ (n : ℕ) (y : List ℝ), (chainSteps f n y).length = n + 1 := by
  intro n
  induction n with
  | zero => intro y; rfl
  | succ m ih =>
    intro y
    rw [chainSteps, List.length_cons, ih]

theorem chainSteps_getD_zero (f : ℕ → List ℝ → List ℝ) (n : ℕ) (y : List ℝ) :
    (chainSteps f n y).getD 0 [] = y := by
  cases n <;> rfl

theorem chainSteps_head (f : ℕ → List ℝ → List ℝ) (n : ℕ) (y : List ℝ) :
    (chainSteps f n y).head? = some y := by
  cases n <;> rfl

theorem chainSteps_getD_succ (f : ℕ → List ℝ → List ℝ) :
    ∀ (n k : ℕ) (y : List ℝ), k < n →
      (chainSteps f n y).getD (k + 1) [] = f (n - 1 - k) ((chainSteps f n y).getD k []) := by
  intro n
  induction n with
  | zero =>
    intro k y hk
    exact absurd hk (Nat.not_lt_zero k)
  | succ m ih =>
    intro k y hk
    match k with
    | 0 =>
      rw [chainSteps]
      simp only [List.getD_cons_succ, List.getD_cons_zero]
      rw [chainSteps_getD_zero]
      rfl
    | k + 1 =>
      have hk' : k < m := by omega
      rw [chainSteps]
      simp only [List.getD_cons_succ]
      rw [ih k (f m y) hk']
      have hidx : m - 1 - k = m + 1 - 1 - (k + 1) := by omega
      rw [hidx]

/-- C5: with store_intermediate_states = True, sample returns a trajectory of
exactly n_iter + 1 states whose first element is the initial Gaussian draw of
length (number of mel frames) * total_factor, whose k+1-st state is obtained
from the k-th by the reverse step at t = n_iter - 1 - k (so t runs strictly
decreasing from n_iter - 1 down to 0), and whose last element is exactly the
store_intermediate_states = False return value for the same random draws. -/
theorem C5_sample_trajectory (n : ℕ) (bmin bmax : ℚ) (total_factor : ℕ) (nn : NN)
    (mels : List (List ℝ)) (g : ℕ → ℝ) (z : ℕ → List ℝ) (k : ℕ) (hk : k < n) :
    ∃ ys : List (List ℝ),
      sample n bmin bmax total_factor nn mels g z true = Sum.inl ys ∧
      ys.length = n + 1 ∧
      ys.head? = some ((List.range (mels.length * total_factor)).map g) ∧
      ((List.range (mels.length * total_factor)).map g).length
        = mels.length * total_factor ∧
      ys.getD (k + 1) []
        = compute_inverse_dynamics n bmin bmax nn mels (ys.getD k [])
            (n - 1 - k) (z (n - 1 - k)) true ∧
      sample n bmin bmax total_factor nn mels g z false
        = Sum.inr (sample_terminal n bmin bmax total_factor nn mels g z) ∧
      sample_terminal n bmin bmax total_factor nn mels g z = ys.getLastD [] := by
  refine ⟨chainSteps
      (fun t y => compute_inverse_dynamics n bmin bmax nn mels y t (z t) true) n
      ((List.range (mels.length * total_factor)).map g),
    rfl, chainSteps_length _ n _, chainSteps_head _ n _, ?_,
    chainSteps_getD_succ _ n k _ hk, rfl, rfl⟩
  rw [List.length_map, List.length_range]

/-- Witness for C5 at n_iter = 2, k = 0, total_factor = 1, empty features, a
constant-zero predictor and zero random draws. -/
theorem C5_sample_trajectory_witness :
    0 < 2 ∧
    ∃ ys : List (List ℝ),
      sample 2 (1 / 10) (1 / 2) 1 (fun _ _ _ => []) [] (fun _ => 0) (fun _ => []) true
        = Sum.inl ys ∧
      ys.length = 2 + 1 ∧
      ys.head? = some ((List.range ((List.length ([] : List (List ℝ))) * 1)).map
        (fun _ : ℕ => (0 : ℝ))) ∧
      ((List.range ((List.length ([] : List (List ℝ))) * 1)).map (fun _ : ℕ => (0 : ℝ))).length
        = (List.length ([] : List (List ℝ))) * 1 ∧
      ys.getD (0 + 1) []
        = compute_inverse_dynamics 2 (1 / 10) (1 / 2) (fun _ _ _ => []) [] (ys.getD 0 [])
            (2 - 1 - 0) ((fun _ : ℕ => ([] : List ℝ)) (2 - 1 - 0)) true ∧
      sample 2 (1 / 10) (1 / 2) 1 (fun _ _ _ => []) [] (fun _ => 0) (fun _ => []) false
        = Sum.inr (sample_terminal 2 (1 / 10) (1 / 2) 1 (fun _ _ _ => []) []
            (fun _ => 0) (fun _ => [])) ∧
      sample_terminal 2 (1 / 10) (1 / 2) 1 (fun _ _ _ => []) [] (fun _ => 0) (fun _ => [])
        = ys.getLastD [] :=
  ⟨by decide,
    C5_sample_trajectory 2 (1 / 10) (1 / 2) 1 (fun _ _ _ => []) [] (fun _ => 0)
      (fun _ => []) 0 (by decide)⟩

theorem zipWith_add_mul_zero (c : ℝ) :
    ∀ (l m : List ℝ), (∀ x ∈ m, x = 0) → l.length ≤ m.length →
      List.zipWith (fun a b => a + b * c) l m = l := by
  intro l
  induction l with
  | nil =>
    intro m _ _
    simp
  | cons a as ih =>
    intro m hm hlen
    cases m with
    | nil => simp at hlen
    | cons b bs =>
      have hb : b = 0 := hm b (by simp)
      rw [List.zipWith_cons_cons, hb]
      rw [show a + 0 * c = a by ring]
      rw [ih bs (fun x hx => hm x (by simp [hx])) (by simpa using hlen)]

theorem p_mean_variance_fst_length_le (n : ℕ) (bmin bmax : ℚ) (nn : NN)
    (mels : List (List ℝ)) (y : List ℝ) (t : ℕ) (clip_denoised : Bool) :
    (p_mean_variance n bmin bmax nn mels y t clip_denoised).1.length ≤ y.length := by
  rw [p_mean_variance, q_posterior]
  simp only [List.length_zipWith]
  exact min_le_right _ _

/-- C6: the reverse step at t = 0 injects no noise: the result equals the
posterior mean (z is replaced by zeros, so mean + 0 * exp(0.5 * log_variance)),
hence two calls with identical features, state and deterministic predictor
return identical outputs whatever Gaussian draws z would have been used. -/
theorem C6_reverse_step_deterministic (n : ℕ) (bmin bmax : ℚ) (nn : NN)
    (mels : List (List ℝ)) (y z₁ z₂ : List ℝ) (clip_denoised : Bool) :
    compute_inverse_dynamics n bmin bmax nn mels y 0 z₁ clip_denoised
      = compute_inverse_dynamics n bmin bmax nn mels y 0 z₂ clip_denoised ∧
    compute_inverse_dynamics n bmin bmax nn mels y 0 z₁ clip_denoised
      = (p_mean_variance n bmin bmax nn mels y 0 clip_denoised).1 := by
  constructor
  · rfl
  · rw [compute_inverse_dynamics]
    simp only [lt_self_iff_false, if_false]
    refine zipWith_add_mul_zero _ _ _ ?_ ?_
    · intro x hx
      simp only [List.mem_map] at hx
      obtain ⟨_, _, rfl⟩ := hx
      rfl
    · rw [List.length_map]
      exact p_mean_variance_fst_length_le n bmin bmax nn mels y 0 clip_denoised

/-- Fuel-driven embedding of torch.Tensor.split(split_size, dim = -1): repeatedly
take split_size elements and recurse on the rest.  The fuel is instantiated
with the list length by chunkList, which is enough whenever split_size > 0. -/
def chunkListAux {α : Type} : ℕ → ℕ → List α → List (List α)
  | 0, _, _ => []
  | _ + 1, _, [] => []
  | fuel + 1, s, a :: as => (a :: as).take s :: chunkListAux fuel s ((a :: as).drop s)

/-- Embedding of mels.split(self.mel_segment_length, dim = -1): consecutive
chunks of split_size frames, the last chunk possibly shorter. -/
def chunkList {α : Type} (s : ℕ) (l : List α) : List (List α) :=
  chunkListAux l.length s l

/-- Index-aware map: mapIdxFrom f i [a, b, ...] = [f i a, f (i+1) b, ...].  It
models the loop over splits, each iteration consuming its own randomness. -/
def mapIdxFrom {α β : Type} (f : ℕ → α → β) : ℕ → List α → List β
  | _, [] => []
  | i, a :: as => f i a :: mapIdxFrom f (i + 1) as

/-- Embedding of sample_subregions_parallel (lines 141..162) in its
store_intermediate_states = False form: split the mel frames into chunks of
mel_segment_length, run sample on each chunk with that chunk's own fresh
randomness (rs i = the initial-noise draw and the per-step draws consumed by the
i-th loop iteration), and concatenate the resulting waveforms in order. -/
noncomputable def sample_subregions_parallel (n : ℕ) (bmin bmax : ℚ)
    (total_factor mel_segment_length : ℕ) (nn : NN) (mels : List (List ℝ))
    (rs : ℕ → (ℕ → ℝ) × (ℕ → List ℝ)) : List ℝ :=
  (mapIdxFrom
    (fun i c => sample_terminal n bmin bmax total_factor nn c (rs i).1 (rs i).2)
    0 (chunkList mel_segment_length mels)).flatten

theorem chunkListAux_flatten {α : Type} (s : ℕ) (hs : 0 < s) :
    ∀ (fuel : ℕ) (l : List α), l.length ≤ fuel → (chunkListAux fuel s l).flatten = l := by
  intro fuel
  induction fuel with
  | zero =>
    intro l hl
    have hnil : l = [] := List.eq_nil_of_length_eq_zero (Nat.le_zero.mp hl)
    subst hnil
    rfl
  | succ m ih =>
    intro l hl
    match l with
    | [] => rfl
    | a :: as =>
      rw [chunkListAux, List.flatten_cons]
      rw [ih ((a :: as).drop s) ?hfuel]
      · exact List.take_append_drop s (a :: as)
      case hfuel =>
        rw [List.length_drop, List.length_cons]
        rw [List.length_cons] at hl
        omega

theorem chunkList_flatten {α : Type} (s : ℕ) (hs : 0 < s) (l : List α) :
    (chunkList s l).flatten = l :=
  chunkListAux_flatten s hs l.length l (le_refl _)

theorem chunkListAux_mem_length_le {α : Type} (s : ℕ) :
    ∀ (fuel : ℕ) (l : List α), ∀ c ∈ chunkListAux fuel s l, c.length ≤ s := by
  intro fuel
  induction fuel with
  | zero =>
    intro l c hc
    simp [chunkListAux] at hc
  | succ m ih =>
    intro l c hc
    match l with
    | [] => simp [chunkListAux] at hc
    | a :: as =>
      rw [chunkListAux] at hc
      rcases List.mem_cons.mp hc with rfl | hmem
      · rw [List.length_take]
        exact min_le_left _ _
      · exact ih _ c hmem

theorem chunkListAux_getD_length {α : Type} (s : ℕ) (hs : 0 < s) :
    ∀ (fuel : ℕ) (l : List α) (j : ℕ), l.length ≤ fuel →
      j + 1 < (chunkListAux fuel s l).length →
      ((chunkListAux fuel s l).getD j []).length = s := by
  intro fuel
  induction fuel with
  | zero =>
    intro l j _ hj
    simp [chunkListAux] at hj
  | succ m ih =>
    intro l j hl hj
    match l with
    | [] => simp [chunkListAux] at hj
    | a :: as =>
      rw [chunkListAux] at hj ⊢
      match j with
      | 0 =>
        simp only [List.getD_cons_zero]
        rw [List.length_cons] at hj
        have hrest : chunkListAux m s ((a :: as).drop s) ≠ [] := by
          intro he
          rw [he] at hj
          simp at hj
        have hdrop : (a :: as).drop s ≠ [] := by
          intro he
          apply hrest
          rw [he]
          cases m <;> rfl
        have hlen : s < (a :: as).length := by
          by_contra hle
          push_neg at hle
          exact hdrop (List.drop_eq_nil_of_le hle)
        rw [List.length_take]
        omega
      | j + 1 =>
        simp only [List.getD_cons_succ]
        rw [List.length_cons] at hj
        refine ih ((a :: as).drop s) j ?_ (by omega)
        rw [List.length_drop, List.length_cons]
        rw [List.length_cons] at hl
        omega

theorem mapIdxFrom_getD {α β : Type} (f : ℕ → α → β) (dl : α) (db : β) :
    ∀ (l : List α) (i j : ℕ), j < l.length →
      (mapIdxFrom f i l).getD j db = f (i + j) (l.getD j dl) := by
  intro l
  induction l with
  | nil =>
    intro i j hj
    simp at hj
  | cons a as ih =>
    intro i j hj
    match j with
    | 0 =>
      rw [mapIdxFrom]
      simp
    | j + 1 =>
      rw [mapIdxFrom]
      simp only [List.getD_cons_succ]
      rw [ih (i + 1) j (by simpa using hj)]
      have hidx : i + 1 + j = i + (j + 1) := by omega
      rw [hidx]

/-- C4: the segmented parallel sampler splits the mel frames into consecutive
non-overlapping chunks whose concatenation is exactly the input (no padding, no
overlap, original order), every chunk has at most mel_segment_length frames and
every chunk but the last exactly mel_segment_length; the output is the ordered
concatenation of running the plain sampler on each chunk, and the i-th chunk's
output is identical to calling the plain sampler on that chunk alone with the
same random draws. -/
theorem C4_segmented_sampler (n : ℕ) (bmin bmax : ℚ)
    (total_factor mel_segment_length : ℕ) (nn : NN) (mels : List (List ℝ))
    (rs : ℕ → (ℕ → ℝ) × (ℕ → List ℝ)) (i : ℕ)
    (hseg : 0 < mel_segment_length)
    (hi : i < (chunkList mel_segment_length mels).length) :
    (chunkList mel_segment_length mels).flatten = mels ∧
    (∀ c ∈ chunkList mel_segment_length mels, c.length ≤ mel_segment_length) ∧
    (∀ j, j + 1 < (chunkList mel_segment_length mels).length →
      ((chunkList mel_segment_length mels).getD j []).length = mel_segment_length) ∧
    sample_subregions_parallel n bmin bmax total_factor mel_segment_length nn mels rs
      = (mapIdxFrom
          (fun j c => sample_terminal n bmin bmax total_factor nn c (rs j).1 (rs j).2)
          0 (chunkList mel_segment_length mels)).flatten ∧
    (mapIdxFrom
        (fun j c => sample_terminal n bmin bmax total_factor nn c (rs j).1 (rs j).2)
        0 (chunkList mel_segment_length mels)).getD i []
      = sample_terminal n bmin bmax total_factor nn
          ((chunkList mel_segment_length mels).getD i []) (rs i).1 (rs i).2 := by
  refine ⟨chunkList_flatten mel_segment_length hseg mels,
    fun c hc => chunkListAux_mem_length_le mel_segment_length mels.length mels c hc,
    fun j hj => chunkListAux_getD_length mel_segment_length hseg mels.length mels j
      (le_refl _) hj,
    rfl, ?_⟩
  rw [mapIdxFrom_getD _ [] [] (chunkList mel_segment_length mels) 0 i hi]
  rw [Nat.zero_add]

/-- Witness for C4 at mel_segment_length = 1, a two-frame feature input, chunk
index i = 0, and a constant-zero predictor with zero random draws. -/
theorem C4_segmented_sampler_witness :
    0 < 1 ∧
    0 < (chunkList 1 [[(0 : ℝ)], [(1 : ℝ)]]).length ∧
    ((chunkList 1 [[(0 : ℝ)], [(1 : ℝ)]]).flatten = [[(0 : ℝ)], [(1 : ℝ)]] ∧
    (∀ c ∈ chunkList 1 [[(0 : ℝ)], [(1 : ℝ)]], c.length ≤ 1) ∧
    (∀ j, j + 1 < (chunkList 1 [[(0 : ℝ)], [(1 : ℝ)]]).length →
      ((chunkList 1 [[(0 : ℝ)], [(1 : ℝ)]]).getD j []).length = 1) ∧
    sample_subregions_parallel 2 (1 / 10) (1 / 2) 1 1 (fun _ _ _ => [])
        [[(0 : ℝ)], [(1 : ℝ)]] (fun _ => (fun _ => 0, fun _ => []))
      = (mapIdxFrom
          (fun j c => sample_terminal 2 (1 / 10) (1 / 2) 1 (fun _ _ _ => []) c
            ((fun _ : ℕ => ((fun _ : ℕ => (0 : ℝ)), (fun _ : ℕ => ([] : List ℝ)))) j).1
            ((fun _ : ℕ => ((fun _ : ℕ => (0 : ℝ)), (fun _ : ℕ => ([] : List ℝ)))) j).2)
          0 (chunkList 1 [[(0 : ℝ)], [(1 : ℝ)]])).flatten ∧
    (mapIdxFrom
        (fun j c => sample_terminal 2 (1 / 10) (1 / 2) 1 (fun _ _ _ => []) c
          ((fun _ : ℕ => ((fun _ : ℕ => (0 : ℝ)), (fun _ : ℕ => ([] : List ℝ)))) j).1
          ((fun _ : ℕ => ((fun _ : ℕ => (0 : ℝ)), (fun _ : ℕ => ([] : List ℝ)))) j).2)
        0 (chunkList 1 [[(0 : ℝ)], [(1 : ℝ)]])).getD 0 []
      = sample_terminal 2 (1 / 10) (1 / 2) 1 (fun _ _ _ => [])
          ((chunkList 1 [[(0 : ℝ)], [(1 : ℝ)]]).getD 0 [])
          ((fun _ : ℕ => ((fun _ : ℕ => (0 : ℝ)), (fun _ : ℕ => ([] : List ℝ)))) 0).1
          ((fun _ : ℕ => ((fun _ : ℕ => (0 : ℝ)), (fun _ : ℕ => ([] : List ℝ)))) 0).2) :=
  ⟨Nat.one_pos, by rw [show (chunkList 1 [[(0 : ℝ)], [(1 : ℝ)]]).length = 2 from rfl]; omega,
    C4_segmented_sampler 2 (1 / 10) (1 / 2) 1 1 (fun _ _ _ => [])
      [[(0 : ℝ)], [(1 : ℝ)]] (fun _ => (fun _ => 0, fun _ => [])) 0 Nat.one_pos
      (by rw [show (chunkList 1 [[(0 : ℝ)], [(1 : ℝ)]]).length = 2 from rfl]; omega)⟩

end WaveGradSpec
